import Mathlib

/-!
Shallow embedding of the chess rules engine in `src/chess_game.py`
(class `Board` and the move-application path of class `ChessGame`),
together with theorems checking the natural-language specification
against it.

The 8x8 grid of `Optional[Piece]` is embedded as a total function
`Int → Int → Option Piece`; every read the Python code performs is
guarded by `inside` exactly where the source guards it.  The two
`while` loops (ray scans) are embedded with an explicit fuel of 8,
which is exact: starting one step away from any square, a ray that
stays on the board takes at most 7 further steps, so fuel 8 is never
exhausted while the loop condition still holds.
-/

namespace Chess

/-- Colors WHITE = "w", BLACK = "b" of the source. -/
inductive Color where
  | white
  | black
  deriving DecidableEq, Repr

/-- Piece kinds "K","Q","R","B","N","P" of the source. -/
inductive Kind where
  | K
  | Q
  | R
  | B
  | N
  | P
  deriving DecidableEq, Repr

/-- `Piece(color, kind)` of the source. -/
structure Piece where
  color : Color
  kind : Kind
  deriving DecidableEq, Repr

/-- The expression `WHITE if color == BLACK else BLACK`, used for the
attacker color in `is_in_check` and `_king_moves`. -/
def opponent (color : Color) : Color :=
  if color = Color.black then Color.white else Color.black

/-- A board square, as the `(row, col)` pairs of the source. -/
abbrev Square := Int × Int

/-- A move `(src, dst)` as produced by the generators. -/
abbrev Move := Square × Square

/-- The 8x8 grid `List[List[Optional[Piece]]]`, embedded as a total
function; the embedding only reads it where the source reads the list. -/
abbrev Grid := Int → Int → Option Piece

/-- `Board.inside`: `0 <= r < ROWS and 0 <= c < COLS` with ROWS = COLS = 8. -/
def inside (r c : Int) : Prop :=
  0 ≤ r ∧ r < 8 ∧ 0 ≤ c ∧ c < 8

instance (r c : Int) : Decidable (inside r c) := by
  unfold inside
  infer_instance

/-- Assignment `grid[r][c] = v` on the functional grid. -/
def gridUpdate (g : Grid) (r c : Int) (v : Option Piece) : Grid :=
  fun r' c' => if r' = r ∧ c' = c then v else g r' c'

/-- The grid effect of `Board._make_move_no_checks`: read the piece at
`src`, write it to `dst`, then clear `src` (in that order). -/
def gridMove (g : Grid) (src dst : Square) : Grid :=
  let p := g src.1 src.2
  gridUpdate (gridUpdate g dst.1 dst.2 p) src.1 src.2 none

/-- `Board`: the grid plus `to_move`. -/
structure Board where
  grid : Grid
  to_move : Color

/-- `Board._make_move_no_checks`: relocates the piece and touches nothing
else; promotion is explicitly left to callers in the source. -/
def make_move_no_checks (b : Board) (src dst : Square) : Board :=
  { b with grid := gridMove b.grid src dst }

/-- `Board.king_position`: row-major scan for the first king of `color`. -/
def king_position (g : Grid) (color : Color) : Option Square :=
  (List.range 8).findSome? fun rn =>
    (List.range 8).findSome? fun cn =>
      match g (rn : Int) (cn : Int) with
      | some p =>
        if p.color = color ∧ p.kind = Kind.K then some ((rn : Int), (cn : Int)) else none
      | none => none

/-- The knight offsets of the source, in source order. -/
def knightDeltas : List (Int × Int) :=
  [(-2, -1), (-2, 1), (-1, -2), (-1, 2), (1, -2), (1, 2), (2, -1), (2, 1)]

/-- The 8 adjacent offsets produced by the source's double loop over
`(-1, 0, 1)` skipping `(0, 0)`, in source order. -/
def adjDeltas : List (Int × Int) :=
  [(-1, -1), (-1, 0), (-1, 1), (0, -1), (0, 1), (1, -1), (1, 0), (1, 1)]

/-- The straight ray directions of the source, in source order. -/
def straightDeltas : List (Int × Int) :=
  [(-1, 0), (1, 0), (0, -1), (0, 1)]

/-- The diagonal ray directions of the source, in source order. -/
def diagDeltas : List (Int × Int) :=
  [(-1, -1), (-1, 1), (1, -1), (1, 1)]

/-- Knight block of `Board.is_square_attacked`: a knight of `by_color`
on a knight offset from `(r, c)`. -/
def knightBlock (g : Grid) (r c : Int) (byColor : Color) : Bool :=
  knightDeltas.any fun d =>
    decide (inside (r + d.1) (c + d.2) ∧
      g (r + d.1) (c + d.2) = some ⟨byColor, Kind.N⟩)

/-- Pawn block of `Board.is_square_attacked`: the source sets
`dir = -1 if by_color == WHITE else 1` and looks for a pawn of
`by_color` at `(r + dir, c + dc)` for `dc` in `(-1, 1)`. -/
def pawnBlock (g : Grid) (r c : Int) (byColor : Color) : Bool :=
  let dir : Int := if byColor = Color.white then -1 else 1
  [(-1 : Int), 1].any fun dc =>
    decide (inside (r + dir) (c + dc) ∧
      g (r + dir) (c + dc) = some ⟨byColor, Kind.P⟩)

/-- King block of `Board.is_square_attacked`: a king of `by_color` on an
adjacent square. -/
def kingBlock (g : Grid) (r c : Int) (byColor : Color) : Bool :=
  adjDeltas.any fun d =>
    decide (inside (r + d.1) (c + d.2) ∧
      g (r + d.1) (c + d.2) = some ⟨byColor, Kind.K⟩)

/-- One sliding scan of `Board.is_square_attacked`: walk from `(rr, cc)`
in direction `(dr, dc)` while inside; at the first occupied square the
scan answers whether that square holds a piece of `byColor` with kind
`k1` or `k2`, and stops either way.  Fuel 8 is exact, see module header. -/
def scanDir (g : Grid) (byColor : Color) (k1 k2 : Kind)
    (rr cc dr dc : Int) : Nat → Bool
  | 0 => false
  | n + 1 =>
    if inside rr cc then
      match g rr cc with
      | some p => decide (p.color = byColor ∧ (p.kind = k1 ∨ p.kind = k2))
      | none => scanDir g byColor k1 k2 (rr + dr) (cc + dc) dr dc n
    else false

/-- Straight-ray block of `Board.is_square_attacked` (rooks and queens). -/
def straightBlock (g : Grid) (r c : Int) (byColor : Color) : Bool :=
  straightDeltas.any fun d =>
    scanDir g byColor Kind.R Kind.Q (r + d.1) (c + d.2) d.1 d.2 8

/-- Diagonal-ray block of `Board.is_square_attacked` (bishops and queens). -/
def diagBlock (g : Grid) (r c : Int) (byColor : Color) : Bool :=
  diagDeltas.any fun d =>
    scanDir g byColor Kind.B Kind.Q (r + d.1) (c + d.2) d.1 d.2 8

/-- `Board.is_square_attacked`: the source's sequence of early returns,
as the disjunction of its five blocks in source order. -/
def is_square_attacked (g : Grid) (r c : Int) (byColor : Color) : Bool :=
  knightBlock g r c byColor || pawnBlock g r c byColor ||
    kingBlock g r c byColor || straightBlock g r c byColor ||
    diagBlock g r c byColor

/-- `Board.is_in_check`: false when no king of `color` exists, else the
king square attacked by the opposing color. -/
def is_in_check (g : Grid) (color : Color) : Bool :=
  match king_position g color with
  | none => false
  | some kpos => is_square_attacked g kpos.1 kpos.2 (opponent color)

/-- The source's `t is None or t.color != color` test used by the knight
and king generators. -/
def targetOk (t : Option Piece) (color : Color) : Bool :=
  match t with
  | none => true
  | some t => decide (t.color ≠ color)

/-- `Board._pawn_moves`: one step forward onto an empty square; a double
step from the start row when both squares are empty (the double-step
read `grid[r + 2*dir][c]` is unguarded in the source, exactly as here);
then the two diagonal captures, guarded by `inside`. -/
def pawn_moves (g : Grid) (r c : Int) (color : Color) : List Move :=
  let dir : Int := if color = Color.white then -1 else 1
  let start_row : Int := if color = Color.white then 6 else 1
  let forward : List Move :=
    if inside (r + dir) c ∧ g (r + dir) c = none then
      ((r, c), (r + dir, c)) ::
        (if r = start_row ∧ g (r + 2 * dir) c = none then
          [((r, c), (r + 2 * dir, c))]
        else [])
    else []
  let caps : List Move :=
    [(-1 : Int), 1].filterMap fun dc =>
      if inside (r + dir) (c + dc) then
        match g (r + dir) (c + dc) with
        | some t => if t.color ≠ color then some ((r, c), (r + dir, c + dc)) else none
        | none => none
      else none
  forward ++ caps

/-- `Board._knight_moves`. -/
def knight_moves (g : Grid) (r c : Int) (color : Color) : List Move :=
  knightDeltas.filterMap fun d =>
    if inside (r + d.1) (c + d.2) ∧ targetOk (g (r + d.1) (c + d.2)) color = true then
      some ((r, c), (r + d.1, c + d.2))
    else none

/-- The `while` loop inside `Board._ray_moves` for one direction:
collect empty squares, include the first occupied square only when it
holds an opposing piece, then stop.  Fuel 8 is exact, see module header. -/
def rayLoop (g : Grid) (color : Color) (src : Square)
    (rr cc dr dc : Int) : Nat → List Move
  | 0 => []
  | n + 1 =>
    if inside rr cc then
      match g rr cc with
      | none => (src, (rr, cc)) :: rayLoop g color src (rr + dr) (cc + dc) dr dc n
      | some t => if t.color ≠ color then [(src, (rr, cc))] else []
    else []

/-- `Board._ray_moves`: the per-direction loops in delta-list order. -/
def ray_moves (g : Grid) (r c : Int) (color : Color)
    (deltas : List (Int × Int)) : List Move :=
  deltas.flatMap fun d => rayLoop g color (r, c) (r + d.1) (c + d.2) d.1 d.2 8

/-- `Board._bishop_moves`. -/
def bishop_moves (g : Grid) (r c : Int) (color : Color) : List Move :=
  ray_moves g r c color diagDeltas

/-- `Board._rook_moves`. -/
def rook_moves (g : Grid) (r c : Int) (color : Color) : List Move :=
  ray_moves g r c color straightDeltas

/-- `Board._queen_moves`. -/
def queen_moves (g : Grid) (r c : Int) (color : Color) : List Move :=
  ray_moves g r c color (diagDeltas ++ straightDeltas)

/-- `Board._king_moves`: adjacent, empty-or-enemy, and additionally the
destination must not be attacked by the opposing color. -/
def king_moves (g : Grid) (r c : Int) (color : Color) : List Move :=
  adjDeltas.filterMap fun d =>
    if inside (r + d.1) (c + d.2) ∧ targetOk (g (r + d.1) (c + d.2)) color = true ∧
        is_square_attacked g (r + d.1) (c + d.2) (opponent color) = false then
      some ((r, c), (r + d.1, c + d.2))
    else none

/-- The `elif` dispatch on `p.kind` inside `generate_pseudo_legal_moves`. -/
def piece_moves (g : Grid) (r c : Int) (k : Kind) (color : Color) : List Move :=
  match k with
  | Kind.P => pawn_moves g r c color
  | Kind.N => knight_moves g r c color
  | Kind.B => bishop_moves g r c color
  | Kind.R => rook_moves g r c color
  | Kind.Q => queen_moves g r c color
  | Kind.K => king_moves g r c color

/-- `Board.generate_pseudo_legal_moves`: row-major scan over the grid,
dispatching per piece kind for pieces of `color`. -/
def generate_pseudo_legal_moves (g : Grid) (color : Color) : List Move :=
  (List.range 8).flatMap fun rn =>
    (List.range 8).flatMap fun cn =>
      match g (rn : Int) (cn : Int) with
      | none => []
      | some p =>
        if p.color = color then piece_moves g (rn : Int) (cn : Int) p.kind color
        else []

/-- The clone built inside the loop of `Board.generate_legal_moves`:
apply the move unchecked, then, when the moved piece (read from the
original grid at `src`) is a pawn reaching the opponent's back rank,
substitute a queen of the mover's color at `dst`. -/
def simulate (g : Grid) (src dst : Square) : Grid :=
  let g2 := gridMove g src dst
  match g src.1 src.2 with
  | some piece =>
    if piece.kind = Kind.P ∧
        ((piece.color = Color.white ∧ dst.1 = 0) ∨
          (piece.color = Color.black ∧ dst.1 = 7)) then
      gridUpdate g2 dst.1 dst.2 (some ⟨piece.color, Kind.Q⟩)
    else g2
  | none => g2

/-- `Board.generate_legal_moves`: keep the pseudo-legal moves whose
simulated successor does not leave `color` in check. -/
def generate_legal_moves (g : Grid) (color : Color) : List Move :=
  (generate_pseudo_legal_moves g color).filter fun m =>
    !(is_in_check (simulate g m.1 m.2) color)

/-- `ChessGame._make_move`: read the moving piece, apply the move
unchecked, auto-promote a pawn reaching the last rank to a queen, then
flip `to_move`. -/
def game_make_move (b : Board) (src dst : Square) : Board :=
  let piece := b.grid src.1 src.2
  let b1 := make_move_no_checks b src dst
  let b2 : Board :=
    match piece with
    | some piece =>
      if piece.kind = Kind.P ∧
          ((piece.color = Color.white ∧ dst.1 = 0) ∨
            (piece.color = Color.black ∧ dst.1 = 7)) then
        { b1 with grid := gridUpdate b1.grid dst.1 dst.2 (some ⟨piece.color, Kind.Q⟩) }
      else b1
    | none => b1
  { b2 with to_move := if b2.to_move = Color.white then Color.black else Color.white }

/-- The back-rank file order `["R","N","B","Q","K","B","N","R"]` of
`Board._setup`, as a function of the column. -/
def backKind (c : Int) : Kind :=
  if c = 0 ∨ c = 7 then Kind.R
  else if c = 1 ∨ c = 6 then Kind.N
  else if c = 2 ∨ c = 5 then Kind.B
  else if c = 3 then Kind.Q
  else Kind.K

/-- The grid produced by `Board._setup`: Black back rank on row 0 and
pawns on row 1, White pawns on row 6 and back rank on row 7. -/
def initGrid : Grid := fun r c =>
  if 0 ≤ c ∧ c < 8 then
    if r = 0 then some ⟨Color.black, backKind c⟩
    else if r = 1 then some ⟨Color.black, Kind.P⟩
    else if r = 6 then some ⟨Color.white, Kind.P⟩
    else if r = 7 then some ⟨Color.white, backKind c⟩
    else none
  else none

/-- `Board.__init__`: the standard setup with White to move. -/
def initBoard : Board :=
  { grid := initGrid, to_move := Color.white }

/-- Test grid: a White pawn on (3,3) and a Black pawn on (2,2), which the
White pawn can capture diagonally forward. -/
def pbGrid : Grid := fun r c =>
  if r = 3 ∧ c = 3 then some ⟨Color.white, Kind.P⟩
  else if r = 2 ∧ c = 2 then some ⟨Color.black, Kind.P⟩
  else none

/-- Test grid: a White king on (0,0) next to a Black rook on (0,1) that
is defended by a second Black rook on (7,1). -/
def kbGrid : Grid := fun r c =>
  if r = 0 ∧ c = 0 then some ⟨Color.white, Kind.K⟩
  else if r = 0 ∧ c = 1 then some ⟨Color.black, Kind.R⟩
  else if r = 7 ∧ c = 1 then some ⟨Color.black, Kind.R⟩
  else none

/-- Test grid: a White knight on (1,2) and a Black pawn on (3,3) that the
knight can capture. -/
def agGrid : Grid := fun r c =>
  if r = 1 ∧ c = 2 then some ⟨Color.white, Kind.N⟩
  else if r = 3 ∧ c = 3 then some ⟨Color.black, Kind.P⟩
  else none

/-- Test grid: a lone White pawn on (6,0); neither side has a king. -/
def nkGrid : Grid := fun r c =>
  if r = 6 ∧ c = 0 then some ⟨Color.white, Kind.P⟩ else none

/-- Test grid: a lone White pawn on (1,0), one step from promotion. -/
def promoGrid : Grid := fun r c =>
  if r = 1 ∧ c = 0 then some ⟨Color.white, Kind.P⟩ else none

/-- A unit step direction: each component in `{-1, 0, 1}`, not both zero.
Every delta in `straightDeltas`, `diagDeltas` and `adjDeltas` satisfies it. -/
def unitDir (dr dc : Int) : Prop :=
  (dr = -1 ∨ dr = 0 ∨ dr = 1) ∧ (dc = -1 ∨ dc = 0 ∨ dc = 1) ∧ ¬(dr = 0 ∧ dc = 0)

instance (dr dc : Int) : Decidable (unitDir dr dc) := by
  unfold unitDir
  infer_instance

theorem inside_convex {r c dr dc : Int} (hu : unitDir dr dc)
    (h0 : inside r c) {k : Nat} (hk : inside (r + k * dr) (c + k * dc))
    {j : Nat} (hj : j ≤ k) : inside (r + j * dr) (c + j * dc) := by
  obtain ⟨hdr, hdc, -⟩ := hu
  unfold inside at *
  rcases hdr with h | h | h <;> rcases hdc with h2 | h2 | h2 <;> subst h <;> subst h2 <;>
    simp only [mul_neg_one, mul_one, mul_zero, add_zero] at * <;> omega

theorem unit_bound {r c dr dc : Int} (hu : unitDir dr dc) (h0 : inside r c)
    {k : Nat} (hk : inside (r + k * dr) (c + k * dc)) : k ≤ 7 := by
  obtain ⟨hdr, hdc, hnz⟩ := hu
  unfold inside at *
  rcases hdr with h | h | h
  · subst h; simp only [mul_neg_one] at hk; omega
  · subst h
    rcases hdc with h2 | h2 | h2
    · subst h2; simp only [mul_neg_one] at hk; omega
    · exact absurd ⟨rfl, h2⟩ hnz
    · subst h2; simp only [mul_one] at hk; omega
  · subst h; simp only [mul_one] at hk; omega

/-- First-occupied-square characterization of the ray loop, generalized
over the fuel and the start index along the ray. -/
theorem rayLoop_mem_general (g : Grid) (color : Color) (r c dr dc : Int)
    (hu : unitDir dr dc) (h0 : inside r c) (m : Move) :
    ∀ (n i : Nat), 1 ≤ i →
      (∀ k : Nat, i ≤ k → inside (r + k * dr) (c + k * dc) → k < i + n) →
      (m ∈ rayLoop g color (r, c) (r + i * dr) (c + i * dc) dr dc n ↔
        ∃ k : Nat, i ≤ k ∧ m = ((r, c), (r + k * dr, c + k * dc)) ∧
          inside (r + k * dr) (c + k * dc) ∧
          (∀ j : Nat, i ≤ j → j < k → g (r + j * dr) (c + j * dc) = none) ∧
          (g (r + k * dr) (c + k * dc) = none ∨
            ∃ t, g (r + k * dr) (c + k * dc) = some t ∧ t.color ≠ color)) := by
  intro n
  induction n with
  | zero =>
    intro i hi hbound
    simp only [rayLoop, List.not_mem_nil, false_iff]
    rintro ⟨k, hik, -, hk, -, -⟩
    exact absurd (hbound k hik hk) (by omega)
  | succ n ih =>
    intro i hi hbound
    by_cases hins : inside (r + i * dr) (c + i * dc)
    · cases hg : g (r + (i : Int) * dr) (c + (i : Int) * dc) with
      | none =>
        have hc1 : r + ((i + 1 : Nat) : Int) * dr = r + (i : Int) * dr + dr := by
          push_cast; ring
        have hc2 : c + ((i + 1 : Nat) : Int) * dc = c + (i : Int) * dc + dc := by
          push_cast; ring
        have hrec := ih (i + 1) (by omega)
          (fun k hk hin => by have := hbound k (by omega) hin; omega)
        rw [hc1, hc2] at hrec
        have hunf : rayLoop g color (r, c) (r + (i : Int) * dr) (c + (i : Int) * dc) dr dc (n + 1) =
            ((r, c), (r + (i : Int) * dr, c + (i : Int) * dc)) ::
              rayLoop g color (r, c) (r + (i : Int) * dr + dr)
                (c + (i : Int) * dc + dc) dr dc n := by
          rw [rayLoop, if_pos hins, hg]
        rw [hunf, List.mem_cons, hrec]
        constructor
        · rintro (rfl | ⟨k, hk1, hk2, hk3, hk4, hk5⟩)
          · exact ⟨i, le_refl i, rfl, hins,
              fun j hj1 hj2 => absurd hj1 (by omega), Or.inl hg⟩
          · refine ⟨k, by omega, hk2, hk3, ?_, hk5⟩
            intro j hj1 hj2
            rcases eq_or_lt_of_le hj1 with h | hlt
            · rw [← h]; exact hg
            · exact hk4 j (by omega) hj2
        · rintro ⟨k, hk1, hk2, hk3, hk4, hk5⟩
          rcases eq_or_lt_of_le hk1 with h | hlt
          · left; rw [hk2, ← h]
          · right
            exact ⟨k, by omega, hk2, hk3, fun j hj1 hj2 => hk4 j (by omega) hj2, hk5⟩
      | some t =>
        by_cases ht : t.color ≠ color
        · have hunf : rayLoop g color (r, c) (r + (i : Int) * dr) (c + (i : Int) * dc) dr dc (n + 1) =
              [((r, c), (r + (i : Int) * dr, c + (i : Int) * dc))] := by
            rw [rayLoop, if_pos hins, hg]
            exact if_pos ht
          rw [hunf, List.mem_singleton]
          constructor
          · rintro rfl
            exact ⟨i, le_refl i, rfl, hins,
              fun j hj1 hj2 => absurd hj1 (by omega), Or.inr ⟨t, hg, ht⟩⟩
          · rintro ⟨k, hk1, hk2, hk3, hk4, hk5⟩
            rcases eq_or_lt_of_le hk1 with h | hlt
            · rw [hk2, ← h]
            · have := hk4 i (le_refl i) hlt
              rw [hg] at this
              exact Option.noConfusion this
        · have hunf : rayLoop g color (r, c) (r + (i : Int) * dr) (c + (i : Int) * dc) dr dc (n + 1) =
              [] := by
            rw [rayLoop, if_pos hins, hg]
            exact if_neg ht
          rw [hunf]
          simp only [List.not_mem_nil, false_iff]
          rintro ⟨k, hk1, hk2, hk3, hk4, hk5⟩
          rcases eq_or_lt_of_le hk1 with h | hlt
          · rw [← h] at hk5
            rcases hk5 with h5 | ⟨t', ht', ht2⟩
            · rw [hg] at h5; exact Option.noConfusion h5
            · rw [hg] at ht'
              injection ht' with hti
              exact ht (hti ▸ ht2)
          · have := hk4 i (le_refl i) hlt
            rw [hg] at this
            exact Option.noConfusion this
    · have hunf : rayLoop g color (r, c) (r + (i : Int) * dr) (c + (i : Int) * dc) dr dc (n + 1) =
          [] := by
        rw [rayLoop, if_neg hins]
      rw [hunf]
      simp only [List.not_mem_nil, false_iff]
      rintro ⟨k, hk1, -, hk3, -, -⟩
      exact hins (inside_convex hu h0 hk3 hk1)

/-- The ray loop as called by `_ray_moves` (start one step out, fuel 8):
its members are exactly the moves onto the consecutive empty squares,
plus the first occupied square when that square holds an enemy piece. -/
theorem mem_rayLoop_iff (g : Grid) (color : Color) (r c dr dc : Int)
    (hu : unitDir dr dc) (h0 : inside r c) (m : Move) :
    m ∈ rayLoop g color (r, c) (r + dr) (c + dc) dr dc 8 ↔
      ∃ k : Nat, 1 ≤ k ∧ m = ((r, c), (r + k * dr, c + k * dc)) ∧
        inside (r + k * dr) (c + k * dc) ∧
        (∀ j : Nat, 1 ≤ j → j < k → g (r + j * dr) (c + j * dc) = none) ∧
        (g (r + k * dr) (c + k * dc) = none ∨
          ∃ t, g (r + k * dr) (c + k * dc) = some t ∧ t.color ≠ color) := by
  have h := rayLoop_mem_general g color r c dr dc hu h0 m 8 1 (le_refl 1)
    (fun k hk hin => by have := unit_bound hu h0 hin; omega)
  rw [show r + ((1 : Nat) : Int) * dr = r + dr by push_cast; ring,
      show c + ((1 : Nat) : Int) * dc = c + dc by push_cast; ring] at h
  exact h

/-- First-occupied-square characterization of the attack scan, generalized
over the fuel and the start index along the ray. -/
theorem scanDir_general (g : Grid) (byColor : Color) (k1 k2 : Kind)
    (r c dr dc : Int) (hu : unitDir dr dc) (h0 : inside r c) :
    ∀ (n i : Nat), 1 ≤ i →
      (∀ k : Nat, i ≤ k → inside (r + k * dr) (c + k * dc) → k < i + n) →
      (scanDir g byColor k1 k2 (r + i * dr) (c + i * dc) dr dc n = true ↔
        ∃ k : Nat, i ≤ k ∧ inside (r + k * dr) (c + k * dc) ∧
          (∀ j : Nat, i ≤ j → j < k → g (r + j * dr) (c + j * dc) = none) ∧
          ∃ p, g (r + k * dr) (c + k * dc) = some p ∧ p.color = byColor ∧
            (p.kind = k1 ∨ p.kind = k2)) := by
  intro n
  induction n with
  | zero =>
    intro i hi hbound
    simp only [scanDir, Bool.false_eq_true, false_iff]
    rintro ⟨k, hik, hk, -, -⟩
    exact absurd (hbound k hik hk) (by omega)
  | succ n ih =>
    intro i hi hbound
    by_cases hins : inside (r + i * dr) (c + i * dc)
    · cases hg : g (r + (i : Int) * dr) (c + (i : Int) * dc) with
      | none =>
        have hc1 : r + ((i + 1 : Nat) : Int) * dr = r + (i : Int) * dr + dr := by
          push_cast; ring
        have hc2 : c + ((i + 1 : Nat) : Int) * dc = c + (i : Int) * dc + dc := by
          push_cast; ring
        have hrec := ih (i + 1) (by omega)
          (fun k hk hin => by have := hbound k (by omega) hin; omega)
        rw [hc1, hc2] at hrec
        have hunf : scanDir g byColor k1 k2 (r + (i : Int) * dr) (c + (i : Int) * dc) dr dc (n + 1) =
            scanDir g byColor k1 k2 (r + (i : Int) * dr + dr) (c + (i : Int) * dc + dc) dr dc n := by
          rw [scanDir, if_pos hins, hg]
        rw [hunf, hrec]
        constructor
        · rintro ⟨k, hk1, hk2, hk3, hk4⟩
          refine ⟨k, by omega, hk2, ?_, hk4⟩
          intro j hj1 hj2
          rcases eq_or_lt_of_le hj1 with h | hlt
          · rw [← h]; exact hg
          · exact hk3 j (by omega) hj2
        · rintro ⟨k, hk1, hk2, hk3, hk4⟩
          rcases eq_or_lt_of_le hk1 with h | hlt
          · obtain ⟨p, hp, -⟩ := hk4
            rw [← h, hg] at hp
            exact Option.noConfusion hp
          · refine ⟨k, by omega, hk2, ?_, hk4⟩
            intro j hj1 hj2
            exact hk3 j (by omega) hj2
      | some t =>
        have hunf : scanDir g byColor k1 k2 (r + (i : Int) * dr) (c + (i : Int) * dc) dr dc (n + 1) =
            decide (t.color = byColor ∧ (t.kind = k1 ∨ t.kind = k2)) := by
          rw [scanDir, if_pos hins, hg]
        rw [hunf]
        constructor
        · intro hdec
          have hcond := of_decide_eq_true hdec
          exact ⟨i, le_refl i, hins, fun j hj1 hj2 => absurd hj1 (by omega),
            t, hg, hcond.1, hcond.2⟩
        · rintro ⟨k, hk1, hk2, hk3, p, hp, hp1, hp2⟩
          rcases eq_or_lt_of_le hk1 with h | hlt
          · rw [← h, hg] at hp
            injection hp with hpt
            subst hpt
            exact decide_eq_true ⟨hp1, hp2⟩
          · have := hk3 i (le_refl i) hlt
            rw [hg] at this
            exact Option.noConfusion this
    · have hunf : scanDir g byColor k1 k2 (r + (i : Int) * dr) (c + (i : Int) * dc) dr dc (n + 1) =
          false := by
        rw [scanDir, if_neg hins]
      rw [hunf]
      simp only [Bool.false_eq_true, false_iff]
      rintro ⟨k, hk1, hk2, -, -⟩
      exact hins (inside_convex hu h0 hk2 hk1)

/-- The attack scan as called by the straight and diagonal blocks of
`is_square_attacked` (start one step out, fuel 8): it reports true
exactly when the first occupied square along the ray holds a piece of
the attacking color whose kind is `k1` or `k2`. -/
theorem scanDir_iff (g : Grid) (byColor : Color) (k1 k2 : Kind)
    (r c dr dc : Int) (hu : unitDir dr dc) (h0 : inside r c) :
    scanDir g byColor k1 k2 (r + dr) (c + dc) dr dc 8 = true ↔
      ∃ k : Nat, 1 ≤ k ∧ inside (r + k * dr) (c + k * dc) ∧
        (∀ j : Nat, 1 ≤ j → j < k → g (r + j * dr) (c + j * dc) = none) ∧
        ∃ p, g (r + k * dr) (c + k * dc) = some p ∧ p.color = byColor ∧
          (p.kind = k1 ∨ p.kind = k2) := by
  have h := scanDir_general g byColor k1 k2 r c dr dc hu h0 8 1 (le_refl 1)
    (fun k hk hin => by have := unit_bound hu h0 hin; omega)
  rw [show r + ((1 : Nat) : Int) * dr = r + dr by push_cast; ring,
      show c + ((1 : Nat) : Int) * dc = c + dc by push_cast; ring] at h
  exact h

theorem targetOk_iff (t : Option Piece) (color : Color) :
    targetOk t color = true ↔ t = none ∨ ∃ p, t = some p ∧ p.color ≠ color := by
  cases t <;> simp [targetOk]

theorem mem_knight_moves_iff (g : Grid) (r c : Int) (color : Color) (m : Move) :
    m ∈ knight_moves g r c color ↔
      ∃ d ∈ knightDeltas, m = ((r, c), (r + d.1, c + d.2)) ∧
        inside (r + d.1) (c + d.2) ∧ targetOk (g (r + d.1) (c + d.2)) color = true := by
  simp only [knight_moves, List.mem_filterMap]
  constructor
  · rintro ⟨d, hd, hsome⟩
    by_cases h : inside (r + d.1) (c + d.2) ∧ targetOk (g (r + d.1) (c + d.2)) color = true
    · rw [if_pos h] at hsome
      injection hsome with h2
      exact ⟨d, hd, h2.symm, h.1, h.2⟩
    · rw [if_neg h] at hsome
      exact Option.noConfusion hsome
  · rintro ⟨d, hd, rfl, h1, h2⟩
    exact ⟨d, hd, if_pos ⟨h1, h2⟩⟩

theorem mem_king_moves_iff (g : Grid) (r c : Int) (color : Color) (m : Move) :
    m ∈ king_moves g r c color ↔
      ∃ d ∈ adjDeltas, m = ((r, c), (r + d.1, c + d.2)) ∧
        inside (r + d.1) (c + d.2) ∧ targetOk (g (r + d.1) (c + d.2)) color = true ∧
        is_square_attacked g (r + d.1) (c + d.2) (opponent color) = false := by
  simp only [king_moves, List.mem_filterMap]
  constructor
  · rintro ⟨d, hd, hsome⟩
    by_cases h : inside (r + d.1) (c + d.2) ∧ targetOk (g (r + d.1) (c + d.2)) color = true ∧
        is_square_attacked g (r + d.1) (c + d.2) (opponent color) = false
    · rw [if_pos h] at hsome
      injection hsome with h2
      exact ⟨d, hd, h2.symm, h.1, h.2.1, h.2.2⟩
    · rw [if_neg h] at hsome
      exact Option.noConfusion hsome
  · rintro ⟨d, hd, rfl, h1, h2, h3⟩
    exact ⟨d, hd, if_pos ⟨h1, h2, h3⟩⟩

theorem mem_ray_moves_iff (g : Grid) (r c : Int) (color : Color)
    (deltas : List (Int × Int)) (m : Move) :
    m ∈ ray_moves g r c color deltas ↔
      ∃ d ∈ deltas, m ∈ rayLoop g color (r, c) (r + d.1) (c + d.2) d.1 d.2 8 := by
  simp only [ray_moves, List.mem_flatMap]

theorem pawn_shape {g : Grid} {r c : Int} {color : Color} {m : Move}
    (hm : m ∈ pawn_moves g r c color) :
    m.1 = (r, c) ∧ inside m.2.1 m.2.2 ∧ m.2 ≠ (r, c) := by
  have hdir : (if color = Color.white then (-1 : Int) else 1) = -1 ∨
      (if color = Color.white then (-1 : Int) else 1) = 1 := by
    cases color <;> simp
  have hsrow : ((if color = Color.white then (6 : Int) else 1) = 6 ∧
        (if color = Color.white then (-1 : Int) else 1) = -1) ∨
      ((if color = Color.white then (6 : Int) else 1) = 1 ∧
        (if color = Color.white then (-1 : Int) else 1) = 1) := by
    cases color <;> simp
  simp only [pawn_moves] at hm
  rcases List.mem_append.mp hm with h | h
  · by_cases h1 : inside (r + (if color = Color.white then (-1 : Int) else 1)) c ∧
        g (r + (if color = Color.white then (-1 : Int) else 1)) c = none
    · rw [if_pos h1] at h
      rcases List.mem_cons.mp h with h2 | h2
      · subst h2
        refine ⟨rfl, h1.1, ?_⟩
        intro hc
        rw [Prod.mk.injEq] at hc
        rcases hdir with h3 | h3 <;> rw [h3] at hc <;> omega
      · by_cases h3 : r = (if color = Color.white then (6 : Int) else 1) ∧
            g (r + 2 * (if color = Color.white then (-1 : Int) else 1)) c = none
        · rw [if_pos h3] at h2
          have h4 := List.mem_singleton.mp h2
          subst h4
          refine ⟨rfl, ?_, ?_⟩
          · show inside (r + 2 * (if color = Color.white then (-1 : Int) else 1)) c
            have h5 := h1.1
            have h6 := h3.1
            unfold inside at h5 ⊢
            rcases hsrow with ⟨ha, hb⟩ | ⟨ha, hb⟩ <;> rw [ha] at h6 <;> rw [hb] <;> omega
          · intro hc
            rw [Prod.mk.injEq] at hc
            rcases hdir with hb | hb <;> rw [hb] at hc <;> omega
        · rw [if_neg h3] at h2
          exact absurd h2 (List.not_mem_nil m)
    · rw [if_neg h1] at h
      exact absurd h (List.not_mem_nil m)
  · obtain ⟨dc, hdc, hsome⟩ := List.mem_filterMap.mp h
    by_cases h1 : inside (r + (if color = Color.white then (-1 : Int) else 1)) (c + dc)
    · rw [if_pos h1] at hsome
      cases hg : g (r + (if color = Color.white then (-1 : Int) else 1)) (c + dc) with
      | none =>
        rw [hg] at hsome
        exact Option.noConfusion hsome
      | some t =>
        rw [hg] at hsome
        have hsome2 : (if t.color ≠ color then
            some ((r, c), (r + (if color = Color.white then (-1 : Int) else 1), c + dc))
          else none) = some m := hsome
        by_cases h2 : t.color ≠ color
        · rw [if_pos h2] at hsome2
          injection hsome2 with h3
          subst h3
          refine ⟨rfl, h1, ?_⟩
          intro hc
          rw [Prod.mk.injEq] at hc
          rcases hdir with hb | hb <;> rw [hb] at hc <;> omega
        · rw [if_neg h2] at hsome2
          exact Option.noConfusion hsome2
    · rw [if_neg h1] at hsome
      exact Option.noConfusion hsome

theorem knight_shape {g : Grid} {r c : Int} {color : Color} {m : Move}
    (hm : m ∈ knight_moves g r c color) :
    m.1 = (r, c) ∧ inside m.2.1 m.2.2 ∧ m.2 ≠ (r, c) := by
  obtain ⟨d, hd, rfl, h1, h2⟩ := (mem_knight_moves_iff g r c color m).mp hm
  refine ⟨rfl, h1, ?_⟩
  fin_cases hd <;>
    (intro hc; rw [Prod.mk.injEq] at hc; omega)

theorem king_shape {g : Grid} {r c : Int} {color : Color} {m : Move}
    (hm : m ∈ king_moves g r c color) :
    m.1 = (r, c) ∧ inside m.2.1 m.2.2 ∧ m.2 ≠ (r, c) := by
  obtain ⟨d, hd, rfl, h1, h2, h3⟩ := (mem_king_moves_iff g r c color m).mp hm
  refine ⟨rfl, h1, ?_⟩
  fin_cases hd <;>
    (intro hc; rw [Prod.mk.injEq] at hc; omega)

theorem ray_shape {g : Grid} {r c : Int} {color : Color}
    {deltas : List (Int × Int)} {m : Move} (h0 : inside r c)
    (hdel : ∀ d ∈ deltas, unitDir d.1 d.2)
    (hm : m ∈ ray_moves g r c color deltas) :
    m.1 = (r, c) ∧ inside m.2.1 m.2.2 ∧ m.2 ≠ (r, c) := by
  obtain ⟨d, hd, hm2⟩ := (mem_ray_moves_iff g r c color deltas m).mp hm
  have hu := hdel d hd
  obtain ⟨k, hk1, rfl, hk3, -, -⟩ :=
    (mem_rayLoop_iff g color r c d.1 d.2 hu h0 m).mp hm2
  refine ⟨rfl, hk3, ?_⟩
  intro hc
  rw [Prod.mk.injEq] at hc
  obtain ⟨hdr, hdc, hnz⟩ := hu
  rcases hdr with h | h | h <;> rcases hdc with h4 | h4 | h4 <;>
    rw [h, h4] at hc <;>
    (simp only [mul_neg_one, mul_one, mul_zero] at hc; omega)

theorem piece_moves_shape {g : Grid} {r c : Int} {color : Color} {m : Move}
    (h0 : inside r c) (k : Kind) (hm : m ∈ piece_moves g r c k color) :
    m.1 = (r, c) ∧ inside m.2.1 m.2.2 ∧ m.2 ≠ (r, c) := by
  cases k with
  | P => exact pawn_shape hm
  | N => exact knight_shape hm
  | B => exact ray_shape h0 (by decide) hm
  | R => exact ray_shape h0 (by decide) hm
  | Q => exact ray_shape h0 (by decide) hm
  | K => exact king_shape hm

/-- Decomposition of membership in `generate_pseudo_legal_moves`: the
move starts at an in-bounds square holding a piece of the generating
color, lands in bounds, moves off its source square, and belongs to that
piece's generator. -/
theorem mem_pseudo_elim {g : Grid} {color : Color} {m : Move}
    (hm : m ∈ generate_pseudo_legal_moves g color) :
    ∃ p, g m.1.1 m.1.2 = some p ∧ p.color = color ∧ inside m.1.1 m.1.2 ∧
      inside m.2.1 m.2.2 ∧ m.2 ≠ m.1 ∧
      m ∈ piece_moves g m.1.1 m.1.2 p.kind color := by
  simp only [generate_pseudo_legal_moves, List.mem_flatMap, List.mem_range] at hm
  obtain ⟨rn, hrn, cn, hcn, hm2⟩ := hm
  cases hg : g (rn : Int) (cn : Int) with
  | none =>
    rw [hg] at hm2
    exact absurd hm2 (List.not_mem_nil m)
  | some p =>
    rw [hg] at hm2
    have hm3 : m ∈ (if p.color = color then
        piece_moves g (rn : Int) (cn : Int) p.kind color else []) := hm2
    by_cases hc : p.color = color
    · rw [if_pos hc] at hm3
      have hins : inside (rn : Int) (cn : Int) := by
        unfold inside
        omega
      obtain ⟨h1, h2, h3⟩ := piece_moves_shape hins p.kind hm3
      refine ⟨p, ?_, hc, ?_, h2, ?_, ?_⟩
      · rw [h1]; exact hg
      · rw [h1]; exact hins
      · rw [h1]; exact h3
      · rw [h1]; exact hm3
    · rw [if_neg hc] at hm3
      exact absurd hm3 (List.not_mem_nil m)

/-- Introduction for `generate_pseudo_legal_moves`: any move produced by
the generator of a piece of `color` standing on an in-bounds square is
among the pseudo-legal moves. -/
theorem mem_pseudo_intro {g : Grid} {color : Color} {r c : Int} {p : Piece}
    {m : Move} (hins : inside r c) (hg : g r c = some p) (hc : p.color = color)
    (hm : m ∈ piece_moves g r c p.kind color) :
    m ∈ generate_pseudo_legal_moves g color := by
  simp only [generate_pseudo_legal_moves, List.mem_flatMap, List.mem_range]
  have hins2 := hins
  unfold inside at hins2
  refine ⟨r.toNat, by omega, c.toNat, by omega, ?_⟩
  rw [Int.toNat_of_nonneg hins2.1, Int.toNat_of_nonneg hins2.2.2.1, hg]
  have hgoal : m ∈ (if p.color = color then piece_moves g r c p.kind color else []) := by
    rw [if_pos hc]
    exact hm
  exact hgoal

theorem knightBlock_iff (g : Grid) (r c : Int) (byColor : Color) :
    knightBlock g r c byColor = true ↔
      ∃ d ∈ knightDeltas, inside (r + d.1) (c + d.2) ∧
        g (r + d.1) (c + d.2) = some ⟨byColor, Kind.N⟩ := by
  simp only [knightBlock, List.any_eq_true, decide_eq_true_eq]

theorem kingBlock_iff (g : Grid) (r c : Int) (byColor : Color) :
    kingBlock g r c byColor = true ↔
      ∃ d ∈ adjDeltas, inside (r + d.1) (c + d.2) ∧
        g (r + d.1) (c + d.2) = some ⟨byColor, Kind.K⟩ := by
  simp only [kingBlock, List.any_eq_true, decide_eq_true_eq]

theorem straightBlock_iff (g : Grid) (r c : Int) (byColor : Color) :
    straightBlock g r c byColor = true ↔
      ∃ d ∈ straightDeltas,
        scanDir g byColor Kind.R Kind.Q (r + d.1) (c + d.2) d.1 d.2 8 = true := by
  simp only [straightBlock, List.any_eq_true]

theorem diagBlock_iff (g : Grid) (r c : Int) (byColor : Color) :
    diagBlock g r c byColor = true ↔
      ∃ d ∈ diagDeltas,
        scanDir g byColor Kind.B Kind.Q (r + d.1) (c + d.2) d.1 d.2 8 = true := by
  simp only [diagBlock, List.any_eq_true]

theorem knightDeltas_neg {d : Int × Int} (hd : d ∈ knightDeltas) :
    (-d.1, -d.2) ∈ knightDeltas := by
  fin_cases hd <;> decide

theorem adjDeltas_neg {d : Int × Int} (hd : d ∈ adjDeltas) :
    (-d.1, -d.2) ∈ adjDeltas := by
  fin_cases hd <;> decide

theorem straightDeltas_neg {d : Int × Int} (hd : d ∈ straightDeltas) :
    (-d.1, -d.2) ∈ straightDeltas := by
  fin_cases hd <;> decide

theorem diagDeltas_neg {d : Int × Int} (hd : d ∈ diagDeltas) :
    (-d.1, -d.2) ∈ diagDeltas := by
  fin_cases hd <;> decide

theorem straightDeltas_unit : ∀ d ∈ straightDeltas, unitDir d.1 d.2 := by decide

theorem diagDeltas_unit : ∀ d ∈ diagDeltas, unitDir d.1 d.2 := by decide

theorem unitDir_neg {dr dc : Int} (h : unitDir dr dc) : unitDir (-dr) (-dc) := by
  obtain ⟨h1, h2, h3⟩ := h
  refine ⟨?_, ?_, ?_⟩
  · rcases h1 with h | h | h <;> subst h <;> decide
  · rcases h2 with h | h | h <;> subst h <;> decide
  · rintro ⟨a, b⟩
    exact h3 ⟨by omega, by omega⟩

/-- Reindex an empty stretch along direction `d` from a base square into
an empty stretch along `-d` from the far end of the stretch. -/
theorem flip_empty_run {g : Grid} {r c dr dc : Int} {k : Nat}
    (hrun : ∀ j : Nat, 1 ≤ j → j < k → g (r + j * dr) (c + j * dc) = none) :
    ∀ j : Nat, 1 ≤ j → j < k →
      g (r + k * dr + j * -dr) (c + k * dc + j * -dc) = none := by
  intro j hj1 hj2
  have h1 : r + (k : Int) * dr + (j : Int) * -dr = r + ((k - j : Nat) : Int) * dr := by
    have hcast : ((k - j : Nat) : Int) = (k : Int) - j := by omega
    rw [hcast]; ring
  have h2 : c + (k : Int) * dc + (j : Int) * -dc = c + ((k - j : Nat) : Int) * dc := by
    have hcast : ((k - j : Nat) : Int) = (k : Int) - j := by omega
    rw [hcast]; ring
  rw [h1, h2]
  exact hrun (k - j) (by omega) (by omega)

theorem knight_agreement (g : Grid) (r c : Int) (color : Color)
    (hin : inside r c) (q : Piece) (hq : g r c = some q) (hqc : q.color ≠ color) :
    (knightBlock g r c color = true ↔
      ∃ sr sc : Int, g sr sc = some ⟨color, Kind.N⟩ ∧
        ((sr, sc), (r, c)) ∈ generate_pseudo_legal_moves g color) := by
  rw [knightBlock_iff]
  constructor
  · rintro ⟨d, hd, hins, hgd⟩
    refine ⟨r + d.1, c + d.2, hgd, ?_⟩
    refine mem_pseudo_intro hins hgd rfl ?_
    show ((r + d.1, c + d.2), (r, c)) ∈ knight_moves g (r + d.1) (c + d.2) color
    refine (mem_knight_moves_iff g (r + d.1) (c + d.2) color _).mpr
      ⟨(-d.1, -d.2), knightDeltas_neg hd, ?_, ?_, ?_⟩
    · simp only [Prod.mk.injEq]
      exact ⟨trivial, by ring, by ring⟩
    · show inside (r + d.1 + -d.1) (c + d.2 + -d.2)
      rw [show r + d.1 + -d.1 = r by ring, show c + d.2 + -d.2 = c by ring]
      exact hin
    · show targetOk (g (r + d.1 + -d.1) (c + d.2 + -d.2)) color = true
      rw [show r + d.1 + -d.1 = r by ring, show c + d.2 + -d.2 = c by ring, hq]
      exact decide_eq_true hqc
  · rintro ⟨sr, sc, hgs, hmem⟩
    obtain ⟨p, hp1, -, hp3, -, -, hp6⟩ := mem_pseudo_elim hmem
    have hp1b : g sr sc = some p := hp1
    rw [hgs] at hp1b
    injection hp1b with hpp
    subst hpp
    have hp3b : inside sr sc := hp3
    have hp6b : ((sr, sc), (r, c)) ∈ knight_moves g sr sc color := hp6
    obtain ⟨d, hd, heq, hins, -⟩ := (mem_knight_moves_iff g sr sc color _).mp hp6b
    simp only [Prod.mk.injEq] at heq
    obtain ⟨-, hr2, hc2⟩ := heq
    refine ⟨(-d.1, -d.2), knightDeltas_neg hd, ?_, ?_⟩
    · show inside (r + -d.1) (c + -d.2)
      rw [show r + -d.1 = sr by omega, show c + -d.2 = sc by omega]
      exact hp3b
    · show g (r + -d.1) (c + -d.2) = some ⟨color, Kind.N⟩
      rw [show r + -d.1 = sr by omega, show c + -d.2 = sc by omega]
      exact hgs

/-- If the attack scan from a target square finds a matching slider, that
slider has a ray capture back onto the target. -/
theorem scan_to_capture {g : Grid} {r c : Int} {color : Color} {dr dc : Int}
    (hu : unitDir dr dc) (hin : inside r c) {q : Piece} (hq : g r c = some q)
    (hqc : q.color ≠ color) {k1 k2 : Kind}
    (hscan : scanDir g color k1 k2 (r + dr) (c + dc) dr dc 8 = true) :
    ∃ (sr sc : Int) (p : Piece), g sr sc = some p ∧ p.color = color ∧
      (p.kind = k1 ∨ p.kind = k2) ∧ inside sr sc ∧
      ((sr, sc), (r, c)) ∈ rayLoop g color (sr, sc) (sr + -dr) (sc + -dc) (-dr) (-dc) 8 := by
  obtain ⟨k, hk1, hkin, hrun, p, hp, hpc, hpk⟩ :=
    (scanDir_iff g color k1 k2 r c dr dc hu hin).mp hscan
  refine ⟨r + k * dr, c + k * dc, p, hp, hpc, hpk, hkin, ?_⟩
  refine (mem_rayLoop_iff g color (r + k * dr) (c + k * dc) (-dr) (-dc)
      (unitDir_neg hu) hkin _).mpr ⟨k, hk1, ?_, ?_, ?_, ?_⟩
  · simp only [Prod.mk.injEq]
    exact ⟨trivial, by ring, by ring⟩
  · rw [show r + (k : Int) * dr + (k : Int) * -dr = r by ring,
        show c + (k : Int) * dc + (k : Int) * -dc = c by ring]
    exact hin
  · exact flip_empty_run hrun
  · rw [show r + (k : Int) * dr + (k : Int) * -dr = r by ring,
        show c + (k : Int) * dc + (k : Int) * -dc = c by ring, hq]
    exact Or.inr ⟨q, rfl, hqc⟩

/-- If a slider at `(sr, sc)` has a ray capture onto `(r, c)`, the attack
scan from `(r, c)` in the reverse direction finds it. -/
theorem capture_to_scan {g : Grid} {sr sc r c : Int} {color : Color} {dr dc : Int}
    (hu : unitDir dr dc) (hsrc : inside sr sc) (hin : inside r c)
    {p : Piece} (hp : g sr sc = some p) (hpc : p.color = color) {k1 k2 : Kind}
    (hpk : p.kind = k1 ∨ p.kind = k2)
    (hloop : ((sr, sc), (r, c)) ∈ rayLoop g color (sr, sc) (sr + dr) (sc + dc) dr dc 8) :
    scanDir g color k1 k2 (r + -dr) (c + -dc) (-dr) (-dc) 8 = true := by
  obtain ⟨k, hk1, heq, hkin, hrun, -⟩ :=
    (mem_rayLoop_iff g color sr sc dr dc hu hsrc _).mp hloop
  simp only [Prod.mk.injEq] at heq
  obtain ⟨-, hr2, hc2⟩ := heq
  refine (scanDir_iff g color k1 k2 r c (-dr) (-dc) (unitDir_neg hu) hin).mpr
    ⟨k, hk1, ?_, ?_, p, ?_, hpc, hpk⟩
  · rw [show r + (k : Int) * -dr = sr from by rw [hr2]; ring,
        show c + (k : Int) * -dc = sc from by rw [hc2]; ring]
    exact hsrc
  · have hflip := @flip_empty_run g sr sc dr dc k hrun
    intro j hj1 hj2
    have e1 : r + (j : Int) * -dr = sr + (k : Int) * dr + (j : Int) * -dr := by rw [hr2]
    have e2 : c + (j : Int) * -dc = sc + (k : Int) * dc + (j : Int) * -dc := by rw [hc2]
    rw [e1, e2]
    exact hflip j hj1 hj2
  · rw [show r + (k : Int) * -dr = sr from by rw [hr2]; ring,
        show c + (k : Int) * -dc = sc from by rw [hc2]; ring]
    exact hp

theorem slider_agreement (g : Grid) (r c : Int) (color : Color)
    (hin : inside r c) (q : Piece) (hq : g r c = some q) (hqc : q.color ≠ color) :
    ((straightBlock g r c color || diagBlock g r c color) = true ↔
      ∃ (sr sc : Int) (p : Piece), g sr sc = some p ∧ p.color = color ∧
        (p.kind = Kind.R ∨ p.kind = Kind.B ∨ p.kind = Kind.Q) ∧
        ((sr, sc), (r, c)) ∈ generate_pseudo_legal_moves g color) := by
  rw [Bool.or_eq_true]
  constructor
  · rintro (hb | hb)
    · obtain ⟨d, hd, hscan⟩ := (straightBlock_iff g r c color).mp hb
      have hu := straightDeltas_unit d hd
      obtain ⟨sr, sc, p, hp, hpc, hpk, hsrc, hloop⟩ :=
        scan_to_capture hu hin hq hqc hscan
      refine ⟨sr, sc, p, hp, hpc, ?_, ?_⟩
      · rcases hpk with h | h
        · exact Or.inl h
        · exact Or.inr (Or.inr h)
      · refine mem_pseudo_intro hsrc hp hpc ?_
        rcases hpk with h | h
        · rw [h]
          show ((sr, sc), (r, c)) ∈ ray_moves g sr sc color straightDeltas
          exact (mem_ray_moves_iff g sr sc color straightDeltas _).mpr
            ⟨(-d.1, -d.2), straightDeltas_neg hd, hloop⟩
        · rw [h]
          show ((sr, sc), (r, c)) ∈ ray_moves g sr sc color (diagDeltas ++ straightDeltas)
          exact (mem_ray_moves_iff g sr sc color (diagDeltas ++ straightDeltas) _).mpr
            ⟨(-d.1, -d.2), List.mem_append_right _ (straightDeltas_neg hd), hloop⟩
    · obtain ⟨d, hd, hscan⟩ := (diagBlock_iff g r c color).mp hb
      have hu := diagDeltas_unit d hd
      obtain ⟨sr, sc, p, hp, hpc, hpk, hsrc, hloop⟩ :=
        scan_to_capture hu hin hq hqc hscan
      refine ⟨sr, sc, p, hp, hpc, ?_, ?_⟩
      · rcases hpk with h | h
        · exact Or.inr (Or.inl h)
        · exact Or.inr (Or.inr h)
      · refine mem_pseudo_intro hsrc hp hpc ?_
        rcases hpk with h | h
        · rw [h]
          show ((sr, sc), (r, c)) ∈ ray_moves g sr sc color diagDeltas
          exact (mem_ray_moves_iff g sr sc color diagDeltas _).mpr
            ⟨(-d.1, -d.2), diagDeltas_neg hd, hloop⟩
        · rw [h]
          show ((sr, sc), (r, c)) ∈ ray_moves g sr sc color (diagDeltas ++ straightDeltas)
          exact (mem_ray_moves_iff g sr sc color (diagDeltas ++ straightDeltas) _).mpr
            ⟨(-d.1, -d.2), List.mem_append_left _ (diagDeltas_neg hd), hloop⟩
  · rintro ⟨sr, sc, p, hgs, hpc, hpk, hmem⟩
    obtain ⟨p', hp1, -, hp3, -, -, hp6⟩ := mem_pseudo_elim hmem
    have hp1b : g sr sc = some p' := hp1
    rw [hgs] at hp1b
    injection hp1b with hpp
    subst hpp
    have hp3b : inside sr sc := hp3
    rcases hpk with hk | hk | hk
    · have hp6b : ((sr, sc), (r, c)) ∈ ray_moves g sr sc color straightDeltas := by
        have hp6c : ((sr, sc), (r, c)) ∈ piece_moves g sr sc p.kind color := hp6
        rw [hk] at hp6c
        exact hp6c
      obtain ⟨d, hd, hloop⟩ := (mem_ray_moves_iff g sr sc color straightDeltas _).mp hp6b
      have hu := straightDeltas_unit d hd
      have hscan : scanDir g color Kind.R Kind.Q (r + -d.1) (c + -d.2) (-d.1) (-d.2) 8 = true :=
        capture_to_scan hu hp3b hin hgs hpc (Or.inl hk) hloop
      left
      exact (straightBlock_iff g r c color).mpr
        ⟨(-d.1, -d.2), straightDeltas_neg hd, hscan⟩
    · have hp6b : ((sr, sc), (r, c)) ∈ ray_moves g sr sc color diagDeltas := by
        have hp6c : ((sr, sc), (r, c)) ∈ piece_moves g sr sc p.kind color := hp6
        rw [hk] at hp6c
        exact hp6c
      obtain ⟨d, hd, hloop⟩ := (mem_ray_moves_iff g sr sc color diagDeltas _).mp hp6b
      have hu := diagDeltas_unit d hd
      have hscan : scanDir g color Kind.B Kind.Q (r + -d.1) (c + -d.2) (-d.1) (-d.2) 8 = true :=
        capture_to_scan hu hp3b hin hgs hpc (Or.inl hk) hloop
      right
      exact (diagBlock_iff g r c color).mpr
        ⟨(-d.1, -d.2), diagDeltas_neg hd, hscan⟩
    · have hp6b : ((sr, sc), (r, c)) ∈ ray_moves g sr sc color (diagDeltas ++ straightDeltas) := by
        have hp6c : ((sr, sc), (r, c)) ∈ piece_moves g sr sc p.kind color := hp6
        rw [hk] at hp6c
        exact hp6c
      obtain ⟨d, hd, hloop⟩ :=
        (mem_ray_moves_iff g sr sc color (diagDeltas ++ straightDeltas) _).mp hp6b
      rcases List.mem_append.mp hd with hd2 | hd2
      · have hu := diagDeltas_unit d hd2
        have hscan : scanDir g color Kind.B Kind.Q (r + -d.1) (c + -d.2) (-d.1) (-d.2) 8 = true :=
          capture_to_scan hu hp3b hin hgs hpc (Or.inr hk) hloop
        right
        exact (diagBlock_iff g r c color).mpr
          ⟨(-d.1, -d.2), diagDeltas_neg hd2, hscan⟩
      · have hu := straightDeltas_unit d hd2
        have hscan : scanDir g color Kind.R Kind.Q (r + -d.1) (c + -d.2) (-d.1) (-d.2) 8 = true :=
          capture_to_scan hu hp3b hin hgs hpc (Or.inr hk) hloop
        left
        exact (straightBlock_iff g r c color).mpr
          ⟨(-d.1, -d.2), straightDeltas_neg hd2, hscan⟩

theorem king_agreement_forward (g : Grid) (r c : Int) (color : Color)
    (sr sc : Int) (hgs : g sr sc = some ⟨color, Kind.K⟩)
    (hmem : ((sr, sc), (r, c)) ∈ generate_pseudo_legal_moves g color) :
    kingBlock g r c color = true := by
  obtain ⟨p', hp1, -, hp3, -, -, hp6⟩ := mem_pseudo_elim hmem
  have hp1b : g sr sc = some p' := hp1
  rw [hgs] at hp1b
  injection hp1b with hpp
  subst hpp
  have hp3b : inside sr sc := hp3
  have hp6b : ((sr, sc), (r, c)) ∈ king_moves g sr sc color := hp6
  obtain ⟨d, hd, heq, -, -, -⟩ := (mem_king_moves_iff g sr sc color _).mp hp6b
  simp only [Prod.mk.injEq] at heq
  obtain ⟨-, hr2, hc2⟩ := heq
  refine (kingBlock_iff g r c color).mpr ⟨(-d.1, -d.2), adjDeltas_neg hd, ?_, ?_⟩
  · show inside (r + -d.1) (c + -d.2)
    rw [show r + -d.1 = sr by omega, show c + -d.2 = sc by omega]
    exact hp3b
  · show g (r + -d.1) (c + -d.2) = some ⟨color, Kind.K⟩
    rw [show r + -d.1 = sr by omega, show c + -d.2 = sc by omega]
    exact hgs

theorem gridUpdate_same (g : Grid) (r c : Int) (v : Option Piece) :
    gridUpdate g r c v r c = v := by
  unfold gridUpdate
  rw [if_pos ⟨rfl, rfl⟩]

theorem gridUpdate_other (g : Grid) (r c : Int) (v : Option Piece)
    {r2 c2 : Int} (h : ¬(r2 = r ∧ c2 = c)) :
    gridUpdate g r c v r2 c2 = g r2 c2 := by
  unfold gridUpdate
  rw [if_neg h]

theorem gridMove_dst {g : Grid} {src dst : Square} (h : dst ≠ src) :
    gridMove g src dst dst.1 dst.2 = g src.1 src.2 := by
  unfold gridMove
  rw [gridUpdate_other _ _ _ _ (fun hc => h (Prod.ext_iff.mpr hc))]
  exact gridUpdate_same _ _ _ _

/-- Evaluation of the legality-filter clone once the moving piece is known. -/
theorem simulate_eval {g : Grid} {src dst : Square} {p : Piece}
    (hp : g src.1 src.2 = some p) :
    simulate g src dst =
      if p.kind = Kind.P ∧
          ((p.color = Color.white ∧ dst.1 = 0) ∨ (p.color = Color.black ∧ dst.1 = 7))
      then gridUpdate (gridMove g src dst) dst.1 dst.2 (some ⟨p.color, Kind.Q⟩)
      else gridMove g src dst := by
  unfold simulate
  rw [hp]

/-- The grid produced by the game controller's move application is the
same grid the legality filter simulates. -/
theorem game_make_move_grid (b : Board) (src dst : Square) :
    (game_make_move b src dst).grid = simulate b.grid src dst := by
  simp only [game_make_move, simulate, make_move_no_checks]
  cases hp : b.grid src.1 src.2 with
  | none => simp only [hp]
  | some p =>
    simp only [hp]
    split_ifs <;> rfl

/-- Claim C1, amended.  On an in-bounds square holding an enemy piece:
the knight block of `is_square_attacked` reports an attack exactly when a
knight of the attacking color has a pseudo-legal capture onto the square;
the two sliding blocks together report an attack exactly when a rook,
bishop or queen of the attacking color has a pseudo-legal capture onto
the square; and a pseudo-legal king capture onto the square implies the
king block reports an attack (the converse fails for kings because the
generator excludes defended destinations, and both directions fail for
pawns because the pawn block scans the wrong direction). -/
theorem attack_generation_agreement (g : Grid) (r c : Int) (color : Color)
    (hin : inside r c) (q : Piece) (hq : g r c = some q) (hqc : q.color ≠ color) :
    (knightBlock g r c color = true ↔
      ∃ sr sc : Int, g sr sc = some ⟨color, Kind.N⟩ ∧
        ((sr, sc), (r, c)) ∈ generate_pseudo_legal_moves g color) ∧
    ((straightBlock g r c color || diagBlock g r c color) = true ↔
      ∃ (sr sc : Int) (p : Piece), g sr sc = some p ∧ p.color = color ∧
        (p.kind = Kind.R ∨ p.kind = Kind.B ∨ p.kind = Kind.Q) ∧
        ((sr, sc), (r, c)) ∈ generate_pseudo_legal_moves g color) ∧
    (∀ sr sc : Int, g sr sc = some ⟨color, Kind.K⟩ →
      ((sr, sc), (r, c)) ∈ generate_pseudo_legal_moves g color →
      kingBlock g r c color = true) :=
  ⟨knight_agreement g r c color hin q hq hqc,
   slider_agreement g r c color hin q hq hqc,
   fun sr sc hgs hmem => king_agreement_forward g r c color sr sc hgs hmem⟩

/-- Concrete instance of the amended C1 theorem: the White knight on
(1,2) of `agGrid` can capture the Black pawn on (3,3), so the knight
block reports the attack. -/
theorem attack_generation_agreement_witness :
    knightBlock agGrid 3 3 Color.white = true :=
  (attack_generation_agreement agGrid 3 3 Color.white (by decide) ⟨Color.black, Kind.P⟩
    (by decide) (by decide)).1.mpr ⟨1, 2, by decide, by decide⟩

/-- Counterexample to claim C1 as stated: on `kbGrid` the square (0,1)
holds a Black rook defended by the rook on (7,1); `is_square_attacked`
reports a White attack on (0,1) through the adjacent White king, yet no
White pseudo-legal move (in particular no capture) lands on (0,1),
because `_king_moves` pre-filters destinations attacked by Black. -/
theorem attack_generation_agreement_cex :
    is_square_attacked kbGrid 0 1 Color.white = true ∧
    kbGrid 0 1 = some ⟨Color.black, Kind.R⟩ ∧
    (∀ m ∈ generate_pseudo_legal_moves kbGrid Color.white,
      m.2 ≠ ((0 : Int), (1 : Int))) := by
  refine ⟨by decide, by decide, by decide⟩

/-- Claim C2: the pawn part of `is_square_attacked` contradicts the
pawn capture rule of `_pawn_moves`.  On `pbGrid` the White pawn on (3,3)
has a pseudo-legal capture onto (2,2) (one row up, toward decreasing
rows), yet `is_square_attacked(2,2,WHITE)` is false; instead the routine
reports an attack on (4,4), a square behind the pawn, because it scans
row `r - 1` (for White) for an attacker that actually must stand on row
`r + 1`. -/
theorem pawn_attack_direction_mismatch :
    ((3, 3), (2, 2)) ∈ generate_pseudo_legal_moves pbGrid Color.white ∧
    pbGrid 3 3 = some ⟨Color.white, Kind.P⟩ ∧
    pbGrid 2 2 = some ⟨Color.black, Kind.P⟩ ∧
    is_square_attacked pbGrid 2 2 Color.white = false ∧
    is_square_attacked pbGrid 4 4 Color.white = true := by
  refine ⟨by decide, by decide, by decide, by decide, by decide⟩

/-- Claim C3: the standard starting position has exactly 20 legal White
moves: for each of the 8 pawns a single and a double push (interleaved
per pawn in row-major scan order), then the 4 knight moves. -/
theorem starting_position_legal_moves :
    generate_legal_moves initGrid Color.white =
      [((6, 0), (5, 0)), ((6, 0), (4, 0)), ((6, 1), (5, 1)), ((6, 1), (4, 1)),
       ((6, 2), (5, 2)), ((6, 2), (4, 2)), ((6, 3), (5, 3)), ((6, 3), (4, 3)),
       ((6, 4), (5, 4)), ((6, 4), (4, 4)), ((6, 5), (5, 5)), ((6, 5), (4, 5)),
       ((6, 6), (5, 6)), ((6, 6), (4, 6)), ((6, 7), (5, 7)), ((6, 7), (4, 7)),
       ((7, 1), (5, 0)), ((7, 1), (5, 2)), ((7, 6), (5, 5)), ((7, 6), (5, 7))] ∧
    (generate_legal_moves initGrid Color.white).length = 20 := by
  have h : generate_legal_moves initGrid Color.white =
      [((6, 0), (5, 0)), ((6, 0), (4, 0)), ((6, 1), (5, 1)), ((6, 1), (4, 1)),
       ((6, 2), (5, 2)), ((6, 2), (4, 2)), ((6, 3), (5, 3)), ((6, 3), (4, 3)),
       ((6, 4), (5, 4)), ((6, 4), (4, 4)), ((6, 5), (5, 5)), ((6, 5), (4, 5)),
       ((6, 6), (5, 6)), ((6, 6), (4, 6)), ((6, 7), (5, 7)), ((6, 7), (4, 7)),
       ((7, 1), (5, 0)), ((7, 1), (5, 2)), ((7, 6), (5, 5)), ((7, 6), (5, 7))] := by
    decide
  exact ⟨h, by rw [h]; rfl⟩

/-- Claim C4: every move accepted by the legality filter, when applied
through the game controller (which re-applies the same auto-queen
substitution before flipping the turn), leaves its mover out of check. -/
theorem legal_moves_never_leave_check (b : Board) (color : Color) (src dst : Square)
    (h : (src, dst) ∈ generate_legal_moves b.grid color) :
    is_in_check (game_make_move b src dst).grid color = false := by
  have h2 := (List.mem_filter.mp h).2
  have h3 : (!(is_in_check (simulate b.grid src dst) color)) = true := h2
  rw [game_make_move_grid]
  simpa using h3

/-- Concrete instance of C4: the opening pawn push (6,4)-(5,4). -/
theorem legal_moves_never_leave_check_witness :
    is_in_check (game_make_move initBoard (6, 4) (5, 4)).grid Color.white = false :=
  legal_moves_never_leave_check initBoard Color.white (6, 4) (5, 4) (by decide)

/-- Claim C5: with no king of `color` on the board, `is_in_check` is
false rather than an error, and consequently a pseudo-legal move whose
simulated successor has no king for the mover passes the legality
filter. -/
theorem missing_king_permissive :
    (∀ (g : Grid) (color : Color),
      king_position g color = none → is_in_check g color = false) ∧
    (∀ (g : Grid) (color : Color) (src dst : Square),
      (src, dst) ∈ generate_pseudo_legal_moves g color →
      king_position (simulate g src dst) color = none →
      (src, dst) ∈ generate_legal_moves g color) := by
  have h1 : ∀ (g : Grid) (color : Color),
      king_position g color = none → is_in_check g color = false := by
    intro g color h
    unfold is_in_check
    rw [h]
  refine ⟨h1, ?_⟩
  intro g color src dst hmem hnone
  refine List.mem_filter.mpr ⟨hmem, ?_⟩
  show (!(is_in_check (simulate g src dst) color)) = true
  rw [h1 (simulate g src dst) color hnone]
  rfl

/-- Concrete instance of C5 on the kingless board `nkGrid`. -/
theorem missing_king_permissive_witness :
    is_in_check nkGrid Color.white = false ∧
    ((6, 0), (5, 0)) ∈ generate_legal_moves nkGrid Color.white :=
  ⟨missing_king_permissive.1 nkGrid Color.white (by decide),
   missing_king_permissive.2 nkGrid Color.white (6, 0) (5, 0) (by decide) (by decide)⟩

/-- Claim C6: on the legality-filter clone, a pseudo-legal pawn move to
the opponent's back rank puts a queen of the mover's color on the
destination; every other pseudo-legal move puts the moved piece itself
(same kind) on the destination. -/
theorem promotion_substitution_in_simulation (g : Grid) (color : Color)
    (src dst : Square) (hmem : (src, dst) ∈ generate_pseudo_legal_moves g color)
    (p : Piece) (hp : g src.1 src.2 = some p) :
    ((p.kind = Kind.P ∧
        ((p.color = Color.white ∧ dst.1 = 0) ∨ (p.color = Color.black ∧ dst.1 = 7))) →
      simulate g src dst dst.1 dst.2 = some ⟨p.color, Kind.Q⟩) ∧
    (¬(p.kind = Kind.P ∧
        ((p.color = Color.white ∧ dst.1 = 0) ∨ (p.color = Color.black ∧ dst.1 = 7))) →
      simulate g src dst dst.1 dst.2 = some p) := by
  obtain ⟨p', hp1, -, -, -, hne, -⟩ := mem_pseudo_elim hmem
  have hp1b : g src.1 src.2 = some p' := hp1
  rw [hp] at hp1b
  injection hp1b with hpp
  subst hpp
  have hne2 : dst ≠ src := hne
  rw [simulate_eval hp]
  constructor
  · intro hcond
    rw [if_pos hcond]
    exact gridUpdate_same _ _ _ _
  · intro hcond
    rw [if_neg hcond]
    exact (gridMove_dst hne2).trans hp

/-- Concrete instances of C6: the promoting push (1,0)-(0,0) yields a
White queen on the clone; the ordinary push (6,4)-(4,4) keeps the pawn. -/
theorem promotion_substitution_in_simulation_witness :
    simulate promoGrid (1, 0) (0, 0) 0 0 = some ⟨Color.white, Kind.Q⟩ ∧
    simulate initGrid (6, 4) (4, 4) 4 4 = some ⟨Color.white, Kind.P⟩ :=
  ⟨(promotion_substitution_in_simulation promoGrid Color.white (1, 0) (0, 0) (by decide)
      ⟨Color.white, Kind.P⟩ (by decide)).1 (by decide),
   (promotion_substitution_in_simulation initGrid Color.white (6, 4) (4, 4) (by decide)
      ⟨Color.white, Kind.P⟩ (by decide)).2 (by decide)⟩

/-- Claim C7: over any single ray direction, `_ray_moves` produces
exactly the moves onto the consecutive empty squares outward from the
piece, up to the board edge or the first occupied square; a first
occupied square contributes a single capture destination when it holds
an enemy piece and nothing when it holds an own piece, and nothing
beyond the first occupied square is ever produced. -/
theorem ray_moves_characterization (g : Grid) (r c dr dc : Int) (color : Color)
    (hu : unitDir dr dc) (h0 : inside r c) (m : Move) :
    m ∈ ray_moves g r c color [(dr, dc)] ↔
      ∃ k : Nat, 1 ≤ k ∧ m = ((r, c), (r + k * dr, c + k * dc)) ∧
        inside (r + k * dr) (c + k * dc) ∧
        (∀ j : Nat, 1 ≤ j → j < k → g (r + j * dr) (c + j * dc) = none) ∧
        (g (r + k * dr) (c + k * dc) = none ∨
          ∃ t, g (r + k * dr) (c + k * dc) = some t ∧ t.color ≠ color) := by
  rw [mem_ray_moves_iff]
  constructor
  · rintro ⟨d, hd, hloop⟩
    rw [List.mem_singleton] at hd
    subst hd
    exact (mem_rayLoop_iff g color r c dr dc hu h0 m).mp hloop
  · intro h
    exact ⟨(dr, dc), List.mem_singleton.mpr rfl,
      (mem_rayLoop_iff g color r c dr dc hu h0 m).mpr h⟩

/-- Concrete instance of C7: from (4,4) on the starting grid, the upward
ray reaches (1,4) as a capture of the Black pawn after two empty squares. -/
theorem ray_moves_characterization_witness :
    ∃ k : Nat, 1 ≤ k ∧
      (((4, 4), (1, 4)) : Move) = ((4, 4), (4 + k * (-1 : Int), 4 + k * (0 : Int))) ∧
      inside (4 + k * (-1 : Int)) (4 + k * (0 : Int)) ∧
      (∀ j : Nat, 1 ≤ j → j < k →
        initGrid (4 + j * (-1 : Int)) (4 + j * (0 : Int)) = none) ∧
      (initGrid (4 + k * (-1 : Int)) (4 + k * (0 : Int)) = none ∨
        ∃ t, initGrid (4 + k * (-1 : Int)) (4 + k * (0 : Int)) = some t ∧
          t.color ≠ Color.white) :=
  (ray_moves_characterization initGrid 4 4 (-1) 0 Color.white (by decide) (by decide)
    ((4, 4), (1, 4))).mp (by decide)

/-- Claim C8: `_king_moves` returns exactly the moves to the adjacent
in-bounds squares that are empty or hold an enemy piece and are not
attacked by the opponent; in particular no generated king move has an
opponent-attacked destination. -/
theorem king_moves_characterization (g : Grid) (r c : Int) (color : Color) (m : Move) :
    m ∈ king_moves g r c color ↔
      ∃ dr dc : Int, (-1 ≤ dr ∧ dr ≤ 1 ∧ -1 ≤ dc ∧ dc ≤ 1 ∧ ¬(dr = 0 ∧ dc = 0)) ∧
        m = ((r, c), (r + dr, c + dc)) ∧ inside (r + dr) (c + dc) ∧
        (g (r + dr) (c + dc) = none ∨
          ∃ t, g (r + dr) (c + dc) = some t ∧ t.color ≠ color) ∧
        is_square_attacked g (r + dr) (c + dc) (opponent color) = false := by
  rw [mem_king_moves_iff]
  constructor
  · rintro ⟨d, hd, heq, h1, h2, h3⟩
    have hb : -1 ≤ d.1 ∧ d.1 ≤ 1 ∧ -1 ≤ d.2 ∧ d.2 ≤ 1 ∧ ¬(d.1 = 0 ∧ d.2 = 0) := by
      fin_cases hd <;> exact (by decide)
    exact ⟨d.1, d.2, hb, heq, h1, (targetOk_iff _ _).mp h2, h3⟩
  · rintro ⟨dr, dc, hb, heq, h1, h2, h3⟩
    refine ⟨(dr, dc), ?_, heq, h1, (targetOk_iff _ _).mpr h2, h3⟩
    obtain ⟨b1, b2, b3, b4, b5⟩ := hb
    have hdr : dr = -1 ∨ dr = 0 ∨ dr = 1 := by omega
    have hdc : dc = -1 ∨ dc = 0 ∨ dc = 1 := by omega
    rcases hdr with h | h | h <;> rcases hdc with h4 | h4 | h4 <;> subst h <;> subst h4 <;>
      first
        | decide
        | exact absurd ⟨rfl, rfl⟩ b5

/-- Claim C9, amended with `src ≠ dst` (which holds for every generated
move): the unchecked move places the source piece on the destination,
clears the source, leaves every other square and the side to move
untouched, and applies no promotion (the destination holds the source
piece unchanged). -/
theorem make_move_no_checks_frame (b : Board) (src dst : Square) (h : src ≠ dst) :
    (make_move_no_checks b src dst).grid dst.1 dst.2 = b.grid src.1 src.2 ∧
    (make_move_no_checks b src dst).grid src.1 src.2 = none ∧
    (∀ r c : Int, (r, c) ≠ src → (r, c) ≠ dst →
      (make_move_no_checks b src dst).grid r c = b.grid r c) ∧
    (make_move_no_checks b src dst).to_move = b.to_move := by
  refine ⟨?_, ?_, ?_, rfl⟩
  · exact gridMove_dst (fun hc => h hc.symm)
  · show gridMove b.grid src dst src.1 src.2 = none
    unfold gridMove
    exact gridUpdate_same _ _ _ _
  · intro r c hs hd
    show gridMove b.grid src dst r c = b.grid r c
    unfold gridMove
    rw [gridUpdate_other _ _ _ _ (fun hc => hs (Prod.ext_iff.mpr hc)),
        gridUpdate_other _ _ _ _ (fun hc => hd (Prod.ext_iff.mpr hc))]

/-- Counterexample to claim C9 as stated, at the degenerate move whose
source and destination coincide: the square ends up empty, so the piece
is not placed on the destination. -/
theorem make_move_no_checks_frame_cex :
    (make_move_no_checks initBoard (0, 0) (0, 0)).grid 0 0 = none ∧
    initBoard.grid 0 0 = some ⟨Color.black, Kind.R⟩ ∧
    (make_move_no_checks initBoard (0, 0) (0, 0)).grid 0 0 ≠ initBoard.grid 0 0 := by
  refine ⟨by decide, by decide, by decide⟩

/-- Concrete instance of the amended C9 on the double pawn push. -/
theorem make_move_no_checks_frame_witness :
    (make_move_no_checks initBoard (6, 4) (4, 4)).grid 4 4 = initBoard.grid 6 4 ∧
    (make_move_no_checks initBoard (6, 4) (4, 4)).grid 6 4 = none ∧
    (make_move_no_checks initBoard (6, 4) (4, 4)).to_move = initBoard.to_move := by
  have h := make_move_no_checks_frame initBoard (6, 4) (4, 4) (by decide)
  exact ⟨h.1, h.2.1, h.2.2.2⟩

/-- Claim C10: every pseudo-legal (hence every legal) move has both
endpoints on the board, and the unguarded pawn double-step read is in
bounds whenever it happens, because it is reached only under the
single-step guard (which bounds the column) and on the home rank (which
bounds the row). -/
theorem generated_moves_in_bounds :
    (∀ (g : Grid) (color : Color) (m : Move), m ∈ generate_pseudo_legal_moves g color →
      inside m.1.1 m.1.2 ∧ inside m.2.1 m.2.2) ∧
    (∀ (g : Grid) (color : Color) (m : Move), m ∈ generate_legal_moves g color →
      inside m.1.1 m.1.2 ∧ inside m.2.1 m.2.2) ∧
    (∀ (color : Color) (r c : Int),
      inside (r + (if color = Color.white then (-1 : Int) else 1)) c →
      r = (if color = Color.white then (6 : Int) else 1) →
      inside (r + 2 * (if color = Color.white then (-1 : Int) else 1)) c) := by
  have h1 : ∀ (g : Grid) (color : Color) (m : Move),
      m ∈ generate_pseudo_legal_moves g color →
      inside m.1.1 m.1.2 ∧ inside m.2.1 m.2.2 := by
    intro g color m hm
    obtain ⟨p, -, -, h3, h4, -, -⟩ := mem_pseudo_elim hm
    exact ⟨h3, h4⟩
  refine ⟨h1, ?_, ?_⟩
  · intro g color m hm
    exact h1 g color m (List.mem_filter.mp hm).1
  · intro color r c hin heq
    cases color
    · have hin2 : inside (r + -1) c := hin
      have heq2 : r = 6 := heq
      show inside (r + 2 * -1) c
      unfold inside at hin2 ⊢
      omega
    · have hin2 : inside (r + 1) c := hin
      have heq2 : r = 1 := heq
      show inside (r + 2 * 1) c
      unfold inside at hin2 ⊢
      omega

/-- Concrete instance of C10 on the double pawn push from the start. -/
theorem generated_moves_in_bounds_witness :
    (inside ((((6, 4), (4, 4)) : Move)).1.1 ((((6, 4), (4, 4)) : Move)).1.2 ∧
      inside ((((6, 4), (4, 4)) : Move)).2.1 ((((6, 4), (4, 4)) : Move)).2.2) ∧
    inside ((6 : Int) + 2 * (if Color.white = Color.white then (-1 : Int) else 1)) 4 :=
  ⟨generated_moves_in_bounds.1 initGrid Color.white ((6, 4), (4, 4)) (by decide),
   generated_moves_in_bounds.2.2 Color.white 6 4 (by decide) (by decide)⟩

end Chess
